import Mathlib

/-!
Verification of `action_graph/planner.py` (a goal-regression planner).

The planner module imports `Action`, `State` and `ActionImpossible` from
`action_graph.action`, a file that is not part of the sources given here;
those three are modelled from the spec (§3 DATA MODEL).  Everything else
below (`checkReferences`, `createActionLookup`, `unique`, the candidate
selection, `findActions`, `pathToPlan`, `findPlan`) is a direct shallow
embedding of the code of `planner.py`.

Modelling choices:
* Python's unbounded recursion is made total with an explicit `fuel`
  argument; running out of fuel yields the artificial error
  `PlanError.outOfFuel`, used by no claim.
* Python float costs are modelled exactly as rationals extended with an
  infinity (`Cost`); `sys.float_info.max` is the exact rational value
  `floatMax`.  Float rounding/overflow of sums of finite costs is not
  modelled (the spec's external contract makes action costs finite
  non-negative numbers).
* Python exceptions become `Except PlanError`:
  `PlanError.indexError` is the `IndexError` of `list(target.items())[0]`
  on an empty goal, `PlanError.goalUnreachable goal` is the
  `Exception(f'No action available to satisfy goal: {goal}')` of line 95.
* The `print` tracing calls are side effects invisible to the result and
  are dropped.
-/

namespace ActionGraph

/-- Modelled from the spec (§3): state-variable values are opaque
comparable data (booleans, strings, numbers), plus the distinguished
`Ellipsis` wildcard marker used for "service" effects. -/
inductive Value where
  | str (s : String)
  | bool (b : Bool)
  | int (n : Int)
  | ellipsis
deriving DecidableEq, Repr

/-- Modelled from the spec (§3): a `State` is an ordered mapping from
variable name to value; iteration order is insertion order, so it is
embedded as an association list. -/
abbrev State := List (String × Value)

/-- `state[k]` / `k in state` of Python, as an optional lookup. -/
def stateLookup? (state : State) (k : String) : Option Value :=
  (state.find? (fun e => decide (e.1 = k))).map (fun e => e.2)

/-- Python float costs: an exact finite value or `float("inf")`.  The
finite component is modelled as an integer; every cost appearing in the
claims is integral, and only ordering and addition of costs matter to
the planner. -/
inductive Cost where
  | fin (n : Int)
  | inf
deriving DecidableEq, Repr

/-- Python float addition restricted to these values: anything plus
infinity is infinity. -/
def Cost.add : Cost → Cost → Cost
  | Cost.fin a, Cost.fin b => Cost.fin (a + b)
  | _, _ => Cost.inf

/-- Python float `<` restricted to these values: `inf < inf` is false,
`finite < inf` is true. -/
def Cost.lt : Cost → Cost → Bool
  | Cost.fin a, Cost.fin b => decide (a < b)
  | Cost.fin _, Cost.inf => true
  | Cost.inf, _ => false

/-- The exact integer value of `sys.float_info.max`, written as a
literal so that it evaluates; `floatMax_eq` below documents it. -/
def floatMax : Int := 179769313486231570814527423731704356798070567525844996598917476803157260780028538760589558632766878171540458953514382464234321326889464182768467546703537516986049910576551282076245490090389328944075868508455133942304583236903222948165808559332123348274797826204144723168738177180919299881250404026184124858368

/-- `sys.float_info.max` is `(2^53 - 1) * 2^971 = 2^1024 - 2^971`. -/
theorem floatMax_eq : floatMax = 2 ^ 971 * (2 ^ 53 - 1) := by norm_num [floatMax]

/-- Modelled from the spec (§3): an `Action` exposes `preconditions`,
`effects` and `cost`, and supports value equality/hashing; a `name` field
gives distinct catalog entries a stable identity. -/
structure Action where
  name : String
  preconditions : State
  effects : State
  cost : Cost
deriving DecidableEq, Repr

/-- Modelled from the spec (§3): the Impossible-Action sentinel, a
distinguished `Action` with empty preconditions/effects and cost `+∞`. -/
def ActionImpossible : Action :=
  ⟨"ActionImpossible", [], [], Cost.inf⟩

/-- `Path = List[Tuple[Action, State, float]]` (planner.py line 9). -/
abbrev PathStep := Action × State × Cost

abbrev Path := List PathStep

/-- `Plan = OrderedDict[Action, State]` (planner.py line 10), embedded as
an ordered association list with unique keys. -/
abbrev Plan := List (Action × State)

/-- The action index: `self._action_lookup`, a `defaultdict(list)` keyed
by `(variable, value)`; missing keys give the empty list. -/
abbrev Lookup := String × Value → List Action

/-- The exceptions `find_plan` can raise, plus the fuel artifact. -/
inductive PlanError where
  | indexError
  | goalUnreachable (goal : State)
  | outOfFuel
deriving DecidableEq, Repr

/-- `Planner.__check_references` (planner.py lines 110-121): if `ref` is a
string and `ref[1:]` is a key of `state`, replace `ref` by
`state[ref[1:]]`; otherwise return `ref` unchanged.  Note the code never
tests what the first character is; it is dropped unconditionally. -/
def checkReferences (ref : Value) (state : State) : Value :=
  match ref with
  | Value.str s =>
    match stateLookup? state (s.drop 1) with
    | some v => v
    | none => Value.str s
  | r => r

/-- `Planner.__create_action_lookup` (planner.py lines 102-108): for each
action in catalog order, for each `(k, v)` in its effects, append the
action to the bucket of `(k, v)`. -/
def createActionLookup (actions : List Action) : Lookup :=
  fun key =>
    actions.foldl
      (fun acc a => acc ++ (a.effects.filter (fun kv => decide (kv = key))).map (fun _ => a))
      []

/-- The recursion of `Planner.__unique` (planner.py lines 98-100) with an
explicit `seen` set: keep `x` iff it has not been seen before. -/
def uniqueAux : List PathStep → Path → Path
  | _, [] => []
  | seen, x :: xs => if x ∈ seen then uniqueAux seen xs else x :: uniqueAux (x :: seen) xs

/-- `Planner.__unique` (planner.py lines 98-100). -/
def unique (path : Path) : Path := uniqueAux [] path

/-- First-occurrence deduplication as the spec words it (§4.3 step 8):
"filter the assembled path to first-occurrence-only per distinct triple,
preserving relative order". -/
def keepFirsts {α : Type _} [DecidableEq α] : List α → List α
  | [] => []
  | x :: xs => x :: keepFirsts (xs.filter (fun y => decide (y ≠ x)))
termination_by l => l.length
decreasing_by
  simp only [List.length_cons]
  exact Nat.lt_succ_of_le (List.length_filter_le _ _)

/-- `sum(a.cost for a, _, cost in path)` (planner.py lines 88-89 and 94):
the total cost of a path is the sum of the *action* costs of its
triples. -/
def pathCost (p : Path) : Cost :=
  p.foldl (fun c t => Cost.add c t.1.cost) (Cost.fin 0)

/-- One iteration of the running-best update (planner.py lines 84-91):
the first candidate becomes the running best; a later candidate replaces
it only when its total cost is strictly lower. -/
def selStep (chosen p : Path) : Path :=
  if chosen.isEmpty then p
  else if Cost.lt (pathCost p) (pathCost chosen) then p else chosen

/-- The whole candidate-selection loop of planner.py lines 84-91, applied
to the already-expanded candidate paths in index order. -/
def selectPath (paths : List Path) : Path :=
  paths.foldl selStep []

/-- A Python `for` loop collecting results where the body may raise:
stops at, and propagates, the first error. -/
def mapExcept {α β ε : Type _} (f : α → Except ε β) : List α → Except ε (List β)
  | [] => Except.ok []
  | x :: xs =>
    match f x with
    | Except.error e => Except.error e
    | Except.ok y =>
      match mapExcept f xs with
      | Except.error e => Except.error e
      | Except.ok ys => Except.ok (y :: ys)

/-- Candidate actions for a resolved goal predicate (planner.py lines
59-62): the exact bucket, falling back to the `(gk, Ellipsis)` wildcard
bucket when the exact bucket is empty. -/
def candidatesOf (lookup : Lookup) (gk : String) (gv : Value) : List Action :=
  let p0 := lookup (gk, gv)
  if p0 = [] then lookup (gk, Value.ellipsis) else p0

/-- `Planner.__find_actions` (planner.py lines 49-96), with explicit fuel
for the unbounded Python recursion.  Argument order follows the source:
goal first, then start state. -/
def findActions (lookup : Lookup) : Nat → State → State → Except PlanError Path
  | 0, _, _ => Except.error PlanError.outOfFuel
  | fuel + 1, target_state, start_state =>
    match target_state with
    | [] => Except.error PlanError.indexError
    | (gk, gv0) :: _ =>
      let gv := checkReferences gv0 start_state
      if (gk, gv) ∈ start_state then Except.ok []
      else
        let probable := candidatesOf lookup gk gv
        if probable = [] then Except.ok [(ActionImpossible, [], Cost.inf)]
        else
          match mapExcept (fun action =>
              (mapExcept (fun pc =>
                  findActions lookup fuel [(pc.1, checkReferences pc.2 [(gk, gv)])] start_state)
                action.preconditions).map
                (fun subs => subs.flatten ++ [(action, [(gk, gv)], action.cost)]))
            probable with
          | Except.error e => Except.error e
          | Except.ok paths =>
            let chosen := selectPath paths
            if Cost.lt (Cost.fin floatMax) (pathCost chosen) then
              Except.error (PlanError.goalUnreachable target_state)
            else Except.ok (unique chosen)

/-- The expansion of one candidate action (planner.py lines 71-82): solve
each precondition (resolved against the expected outcome `[(gk, gv)]`)
recursively against the start state, concatenate the sub-paths in
precondition order, and append the candidate's own triple. -/
def expandAction (lookup : Lookup) (fuel : Nat) (start_state : State) (gk : String)
    (gv : Value) (action : Action) : Except PlanError Path :=
  (mapExcept (fun pc =>
      findActions lookup fuel [(pc.1, checkReferences pc.2 [(gk, gv)])] start_state)
    action.preconditions).map
    (fun subs => subs.flatten ++ [(action, [(gk, gv)], action.cost)])

/-- One `plan[action] = effects` assignment on an `OrderedDict`: an
existing key keeps its position and gets the new value; a new key is
appended at the end. -/
def planInsert (plan : Plan) (a : Action) (s : State) : Plan :=
  if plan.any (fun e => decide (e.1 = a)) then
    plan.map (fun e => if e.1 = a then (a, s) else e)
  else plan ++ [(a, s)]

/-- `Planner.__path_to_plan` (planner.py lines 43-47). -/
def pathToPlan (path : Path) : Plan :=
  path.foldl (fun plan t => planInsert plan t.1 t.2.1) []

/-- `Planner.find_plan` (planner.py lines 30-41): run the search on the
target against the start state, then assemble the plan. -/
def findPlan (lookup : Lookup) (fuel : Nat) (start_state target_state : State) :
    Except PlanError Plan :=
  (findActions lookup fuel target_state start_state).map pathToPlan

/-! ### Unfolding lemmas for `findActions` -/

theorem findActions_zero (lookup : Lookup) (target start_state : State) :
    findActions lookup 0 target start_state = Except.error PlanError.outOfFuel := rfl

theorem findActions_nil (lookup : Lookup) (fuel : Nat) (start_state : State) :
    findActions lookup (fuel + 1) [] start_state = Except.error PlanError.indexError := rfl

/-- One-step unfolding of `findActions` on a non-empty goal, with the
candidate expansion phrased through `expandAction`. -/
theorem findActions_cons (lookup : Lookup) (fuel : Nat) (gk : String) (gv0 : Value)
    (rest start_state : State) :
    findActions lookup (fuel + 1) ((gk, gv0) :: rest) start_state =
      (if (gk, checkReferences gv0 start_state) ∈ start_state then Except.ok []
       else if candidatesOf lookup gk (checkReferences gv0 start_state) = [] then
         Except.ok [(ActionImpossible, [], Cost.inf)]
       else
         match mapExcept
             (expandAction lookup fuel start_state gk (checkReferences gv0 start_state))
             (candidatesOf lookup gk (checkReferences gv0 start_state)) with
         | Except.error e => Except.error e
         | Except.ok paths =>
           if Cost.lt (Cost.fin floatMax) (pathCost (selectPath paths)) then
             Except.error (PlanError.goalUnreachable ((gk, gv0) :: rest))
           else Except.ok (unique (selectPath paths))) := rfl

theorem findActions_satisfied (lookup : Lookup) (fuel : Nat) (gk : String) (gv0 : Value)
    (rest start_state : State) (h : (gk, checkReferences gv0 start_state) ∈ start_state) :
    findActions lookup (fuel + 1) ((gk, gv0) :: rest) start_state = Except.ok [] := by
  rw [findActions_cons]
  simp [h]

theorem findActions_no_candidates (lookup : Lookup) (fuel : Nat) (gk : String) (gv0 : Value)
    (rest start_state : State) (h : (gk, checkReferences gv0 start_state) ∉ start_state)
    (hc : candidatesOf lookup gk (checkReferences gv0 start_state) = []) :
    findActions lookup (fuel + 1) ((gk, gv0) :: rest) start_state =
      Except.ok [(ActionImpossible, [], Cost.inf)] := by
  rw [findActions_cons]
  simp [h, hc]

theorem findActions_candidates (lookup : Lookup) (fuel : Nat) (gk : String) (gv0 : Value)
    (rest start_state : State) (h : (gk, checkReferences gv0 start_state) ∉ start_state)
    (hc : candidatesOf lookup gk (checkReferences gv0 start_state) ≠ []) :
    findActions lookup (fuel + 1) ((gk, gv0) :: rest) start_state =
      (match mapExcept
          (expandAction lookup fuel start_state gk (checkReferences gv0 start_state))
          (candidatesOf lookup gk (checkReferences gv0 start_state)) with
       | Except.error e => Except.error e
       | Except.ok paths =>
         if Cost.lt (Cost.fin floatMax) (pathCost (selectPath paths)) then
           Except.error (PlanError.goalUnreachable ((gk, gv0) :: rest))
         else Except.ok (unique (selectPath paths))) := by
  rw [findActions_cons]
  simp [h, hc]

/-! ### `mapExcept` -/

theorem mapExcept_ok_iff {α β ε : Type _} (f : α → Except ε β) (l : List α) (ys : List β) :
    mapExcept f l = Except.ok ys ↔ List.Forall₂ (fun x y => f x = Except.ok y) l ys := by
  induction l generalizing ys with
  | nil =>
    constructor
    · intro h
      cases h
      exact List.Forall₂.nil
    · intro h
      cases h
      rfl
  | cons x xs ih =>
    constructor
    · intro h
      simp only [mapExcept] at h
      cases hx : f x with
      | error e => rw [hx] at h; cases h
      | ok y =>
        rw [hx] at h
        cases hxs : mapExcept f xs with
        | error e => rw [hxs] at h; cases h
        | ok ys' =>
          rw [hxs] at h
          cases h
          exact List.Forall₂.cons hx ((ih ys').mp hxs)
    · intro h
      cases h with
      | cons hx hxs =>
        simp only [mapExcept, hx, (ih _).mpr hxs]

theorem mapExcept_ok_mem {α β ε : Type _} (f : α → Except ε β) (l : List α) (ys : List β)
    (h : mapExcept f l = Except.ok ys) (y : β) (hy : y ∈ ys) :
    ∃ x ∈ l, f x = Except.ok y := by
  induction l generalizing ys with
  | nil =>
    rw [mapExcept_ok_iff] at h
    cases h
    cases hy
  | cons x xs ih =>
    rw [mapExcept_ok_iff] at h
    cases h with
    | cons hx hxs =>
      cases hy with
      | head => exact ⟨x, List.mem_cons_self _ _, hx⟩
      | tail _ hy' =>
        obtain ⟨x', hx', hfx'⟩ := ih _ ((mapExcept_ok_iff _ _ _).mpr hxs) hy'
        exact ⟨x', List.mem_cons_of_mem _ hx', hfx'⟩

/-! ### `Cost` order facts -/

theorem costLt_trans {a b c : Cost} (hab : Cost.lt a b = true) (hbc : Cost.lt b c = true) :
    Cost.lt a c = true := by
  cases a with
  | fin qa =>
    cases b with
    | fin qb =>
      cases c with
      | fin qc =>
        simp only [Cost.lt, decide_eq_true_eq] at *
        exact lt_trans hab hbc
      | inf => rfl
    | inf => cases c <;> simp [Cost.lt] at hbc ⊢
  | inf => simp [Cost.lt] at hab

theorem costLt_of_lt_of_not_lt {a b c : Cost} (hab : Cost.lt a b = true)
    (hcb : Cost.lt c b = false) : Cost.lt a c = true := by
  cases a with
  | fin qa =>
    cases b with
    | fin qb =>
      cases c with
      | fin qc =>
        simp only [Cost.lt, decide_eq_true_eq, decide_eq_false_iff_not, not_lt] at *
        exact lt_of_lt_of_le hab hcb
      | inf => rfl
    | inf =>
      cases c with
      | fin qc => simp [Cost.lt] at hcb
      | inf => rfl
  | inf => simp [Cost.lt] at hab

/-! ### The running-best selection loop -/

/-- The loop of planner.py lines 84-91 keeps the first candidate whose
total cost no later candidate strictly beats: the result splits the
candidate list into strictly-more-expensive earlier candidates and
no-cheaper later ones. -/
theorem foldl_selStep_first_min (ps : List Path) :
    ∀ chosen : Path, chosen ≠ [] → (∀ p ∈ ps, p ≠ []) →
    ∃ l r, chosen :: ps = l ++ (List.foldl selStep chosen ps) :: r ∧
      (∀ q ∈ l, Cost.lt (pathCost (List.foldl selStep chosen ps)) (pathCost q) = true) ∧
      (∀ q ∈ r, Cost.lt (pathCost q) (pathCost (List.foldl selStep chosen ps)) = false) := by
  induction ps with
  | nil =>
    intro chosen _ _
    exact ⟨[], [], rfl, by simp, by simp⟩
  | cons p ps ih =>
    intro chosen hch hps
    have hp : p ≠ [] := hps p (List.mem_cons_self _ _)
    have hps' : ∀ q ∈ ps, q ≠ [] := fun q hq => hps q (List.mem_cons_of_mem _ hq)
    have hchE : chosen.isEmpty = false := by
      cases chosen with
      | nil => exact absurd rfl hch
      | cons a l => rfl
    have hstep : List.foldl selStep chosen (p :: ps) =
        List.foldl selStep (selStep chosen p) ps := rfl
    cases hb : Cost.lt (pathCost p) (pathCost chosen) with
    | true =>
      have hsel : selStep chosen p = p := by simp [selStep, hchE, hb]
      obtain ⟨l', r', hdec, hl, hr⟩ := ih p hp hps'
      rw [hstep, hsel]
      cases l' with
      | nil =>
        simp only [List.nil_append] at hdec
        injection hdec with h1 h2
        refine ⟨[chosen], r', ?_, ?_, hr⟩
        · simp only [List.cons_append, List.nil_append]
          rw [← h1, h2]
        · intro q hq
          rcases List.mem_singleton.mp hq with rfl
          rw [← h1]
          exact hb
      | cons a l'' =>
        simp only [List.cons_append] at hdec
        injection hdec with h1 h2
        subst h1
        have hresp : Cost.lt (pathCost (List.foldl selStep p ps)) (pathCost p) = true :=
          hl p (List.mem_cons_self _ _)
        have hresch : Cost.lt (pathCost (List.foldl selStep p ps)) (pathCost chosen) = true :=
          costLt_trans hresp hb
        refine ⟨chosen :: p :: l'', r', ?_, ?_, hr⟩
        · simp only [List.cons_append]
          conv_lhs => rw [h2]
        · intro q hq
          rcases List.mem_cons.mp hq with rfl | hq'
          · exact hresch
          · rcases List.mem_cons.mp hq' with rfl | hq''
            · exact hresp
            · exact hl q (List.mem_cons_of_mem _ hq'')
    | false =>
      have hsel : selStep chosen p = chosen := by simp [selStep, hchE, hb]
      obtain ⟨l', r', hdec, hl, hr⟩ := ih chosen hch hps'
      rw [hstep, hsel]
      cases l' with
      | nil =>
        simp only [List.nil_append] at hdec
        injection hdec with h1 h2
        refine ⟨[], p :: ps, by rw [← h1]; rfl, by simp, ?_⟩
        intro q hq
        rcases List.mem_cons.mp hq with rfl | hq'
        · rw [← h1]
          exact hb
        · rw [← h1]
          rw [h2] at hq'
          have := hr q hq'
          rwa [← h1] at this
      | cons a l'' =>
        simp only [List.cons_append] at hdec
        injection hdec with h1 h2
        subst h1
        have hresch : Cost.lt (pathCost (List.foldl selStep chosen ps)) (pathCost chosen) = true :=
          hl chosen (List.mem_cons_self _ _)
        have hresp : Cost.lt (pathCost (List.foldl selStep chosen ps)) (pathCost p) = true :=
          costLt_of_lt_of_not_lt hresch hb
        refine ⟨chosen :: p :: l'', r', ?_, ?_, hr⟩
        · simp only [List.cons_append]
          conv_lhs => rw [h2]
        · intro q hq
          rcases List.mem_cons.mp hq with rfl | hq'
          · exact hresch
          · rcases List.mem_cons.mp hq' with rfl | hq''
            · exact hresp
            · exact hl q (List.mem_cons_of_mem _ hq'')

/-- `selectPath` on a non-empty list of non-empty candidate paths picks
the first candidate of minimal total cost: every earlier candidate is
strictly more expensive, no later candidate is cheaper. -/
theorem selectPath_first_min (ps : List Path) (hne : ps ≠ []) (hps : ∀ p ∈ ps, p ≠ []) :
    ∃ l r, ps = l ++ selectPath ps :: r ∧
      (∀ q ∈ l, Cost.lt (pathCost (selectPath ps)) (pathCost q) = true) ∧
      (∀ q ∈ r, Cost.lt (pathCost q) (pathCost (selectPath ps)) = false) := by
  cases ps with
  | nil => exact absurd rfl hne
  | cons p ps =>
    have hp : p ≠ [] := hps p (List.mem_cons_self _ _)
    have hps' : ∀ q ∈ ps, q ≠ [] := fun q hq => hps q (List.mem_cons_of_mem _ hq)
    have hsel : selectPath (p :: ps) = List.foldl selStep p ps := by
      simp [selectPath, List.foldl, selStep]
    rw [hsel]
    exact foldl_selStep_first_min ps p hp hps'

/-- `selectPath` returns one of the candidate paths. -/
theorem selectPath_mem (ps : List Path) (hne : ps ≠ []) (hps : ∀ p ∈ ps, p ≠ []) :
    selectPath ps ∈ ps := by
  obtain ⟨l, r, hdec, -, -⟩ := selectPath_first_min ps hne hps
  have hmem : selectPath ps ∈ l ++ selectPath ps :: r :=
    List.mem_append_right l (List.mem_cons_self _ _)
  rwa [← hdec] at hmem

/-! ### Deduplication: `unique` keeps first occurrences in order -/

theorem uniqueAux_eq_keepFirsts (l : Path) :
    ∀ seen : List PathStep,
      uniqueAux seen l = keepFirsts (l.filter (fun x => decide (x ∉ seen))) := by
  induction l with
  | nil => intro seen; simp [uniqueAux, keepFirsts]
  | cons x xs ih =>
    intro seen
    by_cases hx : x ∈ seen
    · have hdx : decide (x ∉ seen) = false := by simp [hx]
      simp only [uniqueAux, if_pos hx, List.filter_cons, hdx, Bool.false_eq_true, if_neg]
      exact ih seen
    · have hdx : decide (x ∉ seen) = true := by simp [hx]
      simp only [uniqueAux, if_neg hx, List.filter_cons, hdx, if_pos, keepFirsts]
      rw [ih (x :: seen)]
      have hfil : List.filter (fun y => decide (y ∉ x :: seen)) xs =
          (List.filter (fun y => decide (y ∉ seen)) xs).filter (fun y => decide (y ≠ x)) := by
        rw [List.filter_filter]
        apply List.filter_congr
        intro y _
        by_cases h1 : y = x <;> by_cases h2 : y ∈ seen <;> simp [h1, h2]
      rw [hfil]

theorem unique_eq_keepFirsts (l : Path) : unique l = keepFirsts l := by
  have h := uniqueAux_eq_keepFirsts l []
  simpa [unique, List.filter_eq_self] using h

theorem mem_keepFirsts {α : Type _} [DecidableEq α] (a : α) (l : List α) :
    a ∈ keepFirsts l ↔ a ∈ l := by
  induction l using keepFirsts.induct with
  | case1 => simp [keepFirsts]
  | case2 x xs ih =>
    simp only [keepFirsts, List.mem_cons, ih, List.mem_filter, decide_eq_true_eq]
    by_cases h : a = x <;> simp [h]

theorem keepFirsts_nodup {α : Type _} [DecidableEq α] (l : List α) :
    (keepFirsts l).Nodup := by
  induction l using keepFirsts.induct with
  | case1 => simp [keepFirsts]
  | case2 x xs ih =>
    rw [keepFirsts]
    refine List.Nodup.cons ?_ ih
    intro hmem
    have hx := (mem_keepFirsts x _).mp hmem
    simp [List.mem_filter] at hx

theorem keepFirsts_eq_self_of_nodup {α : Type _} [DecidableEq α] (l : List α)
    (h : l.Nodup) : keepFirsts l = l := by
  induction l using keepFirsts.induct with
  | case1 => simp [keepFirsts]
  | case2 x xs ih =>
    rw [keepFirsts]
    have hx : x ∉ xs := (List.nodup_cons.mp h).1
    have hfil : xs.filter (fun y => decide (y ≠ x)) = xs := by
      apply List.filter_eq_self.mpr
      intro y hy
      simp only [decide_eq_true_eq]
      intro hyx
      exact hx (hyx ▸ hy)
    rw [hfil] at ih ⊢
    rw [ih (List.nodup_cons.mp h).2]

theorem keepFirsts_idem {α : Type _} [DecidableEq α] (l : List α) :
    keepFirsts (keepFirsts l) = keepFirsts l :=
  keepFirsts_eq_self_of_nodup _ (keepFirsts_nodup l)

theorem unique_idem (l : Path) : unique (unique l) = unique l := by
  rw [unique_eq_keepFirsts, unique_eq_keepFirsts, keepFirsts_idem]

theorem uniqueAux_append_not_mem (q : Path) :
    ∀ (seen : List PathStep) (t : PathStep), t ∉ q → t ∉ seen →
      uniqueAux seen (q ++ [t]) = uniqueAux seen q ++ [t] := by
  induction q with
  | nil =>
    intro seen t _ hts
    simp [uniqueAux, hts]
  | cons x xs ih =>
    intro seen t htq hts
    have htx : t ≠ x := fun h => htq (h ▸ List.mem_cons_self _ _)
    have htxs : t ∉ xs := fun h => htq (List.mem_cons_of_mem _ h)
    by_cases hx : x ∈ seen
    · simp only [List.cons_append, uniqueAux, if_pos hx]
      exact ih seen t htxs hts
    · simp only [List.cons_append, uniqueAux, if_neg hx]
      show x :: uniqueAux (x :: seen) (xs ++ [t]) = x :: (uniqueAux (x :: seen) xs ++ [t])
      rw [ih (x :: seen) t htxs (by simp [htx, hts, List.mem_cons])]

theorem unique_append_not_mem (q : Path) (t : PathStep) (h : t ∉ q) :
    unique (q ++ [t]) = unique q ++ [t] :=
  uniqueAux_append_not_mem q [] t h (by simp)

theorem keepFirsts_append_singleton {α : Type _} [DecidableEq α] (l : List α) (a : α) :
    keepFirsts (l ++ [a]) = if a ∈ l then keepFirsts l else keepFirsts l ++ [a] := by
  induction l using keepFirsts.induct with
  | case1 => simp [keepFirsts]
  | case2 x xs ih =>
    by_cases hax : a = x
    · subst hax
      simp only [List.cons_append, keepFirsts, List.filter_append]
      have : [a].filter (fun y => decide (y ≠ a)) = [] := by simp
      rw [this, List.append_nil]
      simp [List.mem_cons]
    · simp only [List.cons_append, keepFirsts, List.filter_append]
      have : [a].filter (fun y => decide (y ≠ x)) = [a] := by simp [hax]
      rw [this, ih]
      have hmemiff : a ∈ xs.filter (fun y => decide (y ≠ x)) ↔ a ∈ xs := by
        simp [List.mem_filter, hax]
      by_cases hmem : a ∈ xs
      · rw [if_pos (hmemiff.mpr hmem), if_pos (List.mem_cons_of_mem _ hmem)]
      · rw [if_neg (fun h => hmem (hmemiff.mp h)),
          if_neg (by simp [List.mem_cons, hax, hmem])]

/-! ### Shape of successful search results -/

/-- Inversion for a successful `findActions` call on a non-empty goal:
either the goal was already satisfied (empty path), or no candidate
action exists (sentinel path), or the result is the deduplicated chosen
candidate path. -/
theorem findActions_ok_cases (lookup : Lookup) (fuel : Nat) (gk : String) (gv0 : Value)
    (rest start_state : State) (p : Path)
    (h : findActions lookup (fuel + 1) ((gk, gv0) :: rest) start_state = Except.ok p) :
    p = [] ∨ p = [(ActionImpossible, [], Cost.inf)] ∨
      ∃ paths,
        mapExcept (expandAction lookup fuel start_state gk (checkReferences gv0 start_state))
            (candidatesOf lookup gk (checkReferences gv0 start_state)) = Except.ok paths ∧
        candidatesOf lookup gk (checkReferences gv0 start_state) ≠ [] ∧
        Cost.lt (Cost.fin floatMax) (pathCost (selectPath paths)) = false ∧
        p = unique (selectPath paths) := by
  by_cases h1 : (gk, checkReferences gv0 start_state) ∈ start_state
  · rw [findActions_satisfied lookup fuel gk gv0 rest start_state h1] at h
    exact Or.inl (Except.ok.inj h).symm
  · by_cases h2 : candidatesOf lookup gk (checkReferences gv0 start_state) = []
    · rw [findActions_no_candidates lookup fuel gk gv0 rest start_state h1 h2] at h
      exact Or.inr (Or.inl (Except.ok.inj h).symm)
    · rw [findActions_candidates lookup fuel gk gv0 rest start_state h1 h2] at h
      right; right
      cases hm : mapExcept
          (expandAction lookup fuel start_state gk (checkReferences gv0 start_state))
          (candidatesOf lookup gk (checkReferences gv0 start_state)) with
      | error e => rw [hm] at h; simp at h
      | ok paths =>
        rw [hm] at h
        cases hcost : Cost.lt (Cost.fin floatMax) (pathCost (selectPath paths)) with
        | true => simp [hcost] at h
        | false =>
          simp only [hcost, Bool.false_eq_true, if_neg, if_false] at h
          exact ⟨paths, rfl, h2, hcost, (Except.ok.inj h).symm⟩

/-- Inversion for a successful candidate expansion: the sub-paths solve
the preconditions pointwise (in order) and the candidate's own triple is
appended last. -/
theorem expandAction_ok (lookup : Lookup) (fuel : Nat) (start_state : State) (gk : String)
    (gv : Value) (act : Action) (q : Path)
    (h : expandAction lookup fuel start_state gk gv act = Except.ok q) :
    ∃ subs : List Path,
      List.Forall₂ (fun pc sp =>
        findActions lookup fuel [(pc.1, checkReferences pc.2 [(gk, gv)])] start_state =
          Except.ok sp) act.preconditions subs ∧
      q = subs.flatten ++ [(act, [(gk, gv)], act.cost)] := by
  unfold expandAction at h
  cases hm : mapExcept (fun pc =>
      findActions lookup fuel [(pc.1, checkReferences pc.2 [(gk, gv)])] start_state)
      act.preconditions with
  | error e => rw [hm] at h; simp [Except.map] at h
  | ok subs =>
    rw [hm] at h
    simp only [Except.map, Except.ok.injEq] at h
    exact ⟨subs, (mapExcept_ok_iff _ _ _).mp hm, h.symm⟩

/-- Claim C6: for every assembled candidate path, the path returned by
the search contains only the first occurrence of each distinct
(action, outcome, cost) triple with relative order preserved — `unique`
implements exactly the first-occurrence filter `keepFirsts`, and every
path a `findActions` call returns is a fixed point of it (already
first-occurrence-only), so an action required by two distinct
precondition-chasing branches appears exactly once, at the position of
its first resolution. -/
theorem c6_returned_path_first_occurrences :
    (∀ l : Path, unique l = keepFirsts l) ∧
    (∀ (lookup : Lookup) (fuel : Nat) (target_state start_state : State) (p : Path),
      findActions lookup fuel target_state start_state = Except.ok p → unique p = p) := by
  refine ⟨unique_eq_keepFirsts, ?_⟩
  intro lookup fuel target_state start_state p h
  cases fuel with
  | zero => rw [findActions_zero] at h; simp at h
  | succ fuel =>
    cases target_state with
    | nil => rw [findActions_nil] at h; simp at h
    | cons kv rest =>
      obtain ⟨gk, gv0⟩ := kv
      rcases findActions_ok_cases lookup fuel gk gv0 rest start_state p h with
        h1 | h1 | ⟨paths, -, -, -, hp⟩
      · subst h1; rfl
      · subst h1; rfl
      · subst hp; exact unique_idem _

theorem c6_witness :
    unique [(ActionImpossible, [], Cost.inf)] = [(ActionImpossible, [], Cost.inf)] :=
  c6_returned_path_first_occurrences.2 (createActionLookup []) 1
    [("g", Value.bool true)] [] [(ActionImpossible, [], Cost.inf)] rfl

/-- The structure claim C7 asserts of every successful search result on
a single resolved goal predicate `(gk, gv)`: the path is empty (goal
already satisfied), the sentinel path (no candidate), or the
deduplication of "sub-paths solving the chosen action's preconditions,
concatenated in precondition order, followed by the chosen action's own
triple"; in the last case, when the chosen action's triple is not also
part of its precondition sub-paths, it is the final step of the
returned path. -/
def TopoDecomp (lookup : Lookup) (fuel : Nat) (start_state : State) (gk : String)
    (gv : Value) (p : Path) : Prop :=
  p = [] ∨ p = [(ActionImpossible, [], Cost.inf)] ∨
    ∃ (act : Action) (subs : List Path),
      act ∈ candidatesOf lookup gk gv ∧
      List.Forall₂ (fun pc sp =>
        findActions lookup fuel [(pc.1, checkReferences pc.2 [(gk, gv)])] start_state =
          Except.ok sp) act.preconditions subs ∧
      p = unique (subs.flatten ++ [(act, [(gk, gv)], act.cost)]) ∧
      ((act, [(gk, gv)], act.cost) ∉ subs.flatten →
        p.getLast? = some (act, [(gk, gv)], act.cost))

/-- Claim C7: every returned path is topologically valid — each selected
action's precondition-solving sub-paths are concatenated in precondition
order *before* the action's own triple, which is appended as the final
step; recursively each sub-path is itself a `findActions` result, so the
property holds at every level of the returned plan. -/
theorem c7_topological_decomposition (lookup : Lookup) (fuel : Nat) (gk : String)
    (gv0 : Value) (rest start_state : State) (p : Path)
    (h : findActions lookup (fuel + 1) ((gk, gv0) :: rest) start_state = Except.ok p) :
    TopoDecomp lookup fuel start_state gk (checkReferences gv0 start_state) p := by
  rcases findActions_ok_cases lookup fuel gk gv0 rest start_state p h with
    h1 | h1 | ⟨paths, hm, hc, hcost, hp⟩
  · exact Or.inl h1
  · exact Or.inr (Or.inl h1)
  · right; right
    have hforall := (mapExcept_ok_iff _ _ _).mp hm
    have hne : paths ≠ [] := by
      intro hnil
      have hlen := hforall.length_eq
      rw [hnil] at hlen
      simp only [List.length_nil] at hlen
      exact hc (List.length_eq_zero.mp hlen)
    have hnonempty : ∀ q ∈ paths, q ≠ [] := by
      intro q hq
      obtain ⟨act, -, hact⟩ := mapExcept_ok_mem _ _ _ hm q hq
      obtain ⟨subs, -, hq'⟩ := expandAction_ok lookup fuel start_state gk
        (checkReferences gv0 start_state) act q hact
      subst hq'
      simp
    have hmem := selectPath_mem paths hne hnonempty
    obtain ⟨act, hactmem, hact⟩ := mapExcept_ok_mem _ _ _ hm (selectPath paths) hmem
    obtain ⟨subs, hsubs, hchosen⟩ := expandAction_ok lookup fuel start_state gk
      (checkReferences gv0 start_state) act (selectPath paths) hact
    refine ⟨act, subs, hactmem, hsubs, by rw [hp, hchosen], ?_⟩
    intro hnotmem
    rw [hp, hchosen, unique_append_not_mem _ _ hnotmem]
    simp

theorem c7_witness :
    TopoDecomp (createActionLookup []) 0 [("a", Value.int 1)] "a" (Value.int 1) [] :=
  c7_topological_decomposition (createActionLookup []) 0 "a" (Value.int 1) []
    [("a", Value.int 1)] [] rfl

/-! ### Claim C2: minimum-cost candidate selection -/

theorem costLt_asymm {a b : Cost} (h : Cost.lt a b = true) : Cost.lt b a = false := by
  cases a with
  | fin qa =>
    cases b with
    | fin qb =>
      simp only [Cost.lt, decide_eq_true_eq] at h
      simp only [Cost.lt, decide_eq_false_iff_not, not_lt]
      exact le_of_lt h
    | inf => rfl
  | inf => simp [Cost.lt] at h

theorem costLt_irrefl (a : Cost) : Cost.lt a a = false := by
  cases a <;> simp [Cost.lt]

/-- The two-path shape of the selection loop. -/
theorem selectPath_pair (p1 p2 : Path) (h1 : p1 ≠ []) :
    selectPath [p1, p2] = if Cost.lt (pathCost p2) (pathCost p1) then p2 else p1 := by
  have hE : p1.isEmpty = false := by
    cases p1 with
    | nil => exact absurd rfl h1
    | cons a l => rfl
  simp [selectPath, List.foldl, selStep, hE]

/-- Claim C2: the total cost of a candidate path is the sum over its
triples (`pathCost`); the first candidate (index order) is the running
best and a later candidate replaces it only when its total cost is
strictly lower.  Part 1: on any list of expanded candidate paths the
selection returns the first path of minimal total cost (all earlier
candidates strictly costlier, no later candidate cheaper).  Parts 2-4:
with two candidates of costs `c1 < c2` the cost-`c1` alternative is
selected, whichever of the two positions it occupies, and ties keep the
earlier candidate. -/
theorem c2_lowest_cost_candidate_selected :
    (∀ ps : List Path, ps ≠ [] → (∀ p ∈ ps, p ≠ []) →
      ∃ l r, ps = l ++ selectPath ps :: r ∧
        (∀ q ∈ l, Cost.lt (pathCost (selectPath ps)) (pathCost q) = true) ∧
        (∀ q ∈ r, Cost.lt (pathCost q) (pathCost (selectPath ps)) = false)) ∧
    (∀ p1 p2 : Path, p1 ≠ [] → Cost.lt (pathCost p1) (pathCost p2) = true →
      selectPath [p1, p2] = p1) ∧
    (∀ p1 p2 : Path, p1 ≠ [] → Cost.lt (pathCost p2) (pathCost p1) = true →
      selectPath [p1, p2] = p2) ∧
    (∀ p1 p2 : Path, p1 ≠ [] → pathCost p1 = pathCost p2 → selectPath [p1, p2] = p1) := by
  refine ⟨selectPath_first_min, ?_, ?_, ?_⟩
  · intro p1 p2 h1 hlt
    rw [selectPath_pair p1 p2 h1, costLt_asymm hlt]
    rfl
  · intro p1 p2 h1 hlt
    rw [selectPath_pair p1 p2 h1, hlt]
    rfl
  · intro p1 p2 h1 heq
    rw [selectPath_pair p1 p2 h1, ← heq, costLt_irrefl]
    rfl

/-- A candidate path of total cost 2. -/
def cheapPath : Path :=
  [(⟨"cheap", [], [("g", Value.int 1)], Cost.fin 2⟩, [("g", Value.int 1)], Cost.fin 2)]

/-- A candidate path of total cost 5. -/
def dearPath : Path :=
  [(⟨"dear", [], [("g", Value.int 1)], Cost.fin 5⟩, [("g", Value.int 1)], Cost.fin 5)]

theorem c2_witness : selectPath [cheapPath, dearPath] = cheapPath :=
  c2_lowest_cost_candidate_selected.2.1 cheapPath dearPath (by decide) (by decide)

/-! ### Claim C4: goal already satisfied -/

/-- Claim C4: when the first goal predicate, resolved against the start
state, is already a pair of the start state, `find_plan` returns the
empty plan — for *every* action index, so the index is never
consulted. -/
theorem c4_satisfied_goal_empty_plan (lookup : Lookup) (fuel : Nat) (gk : String)
    (gv0 : Value) (rest start_state : State)
    (h : (gk, checkReferences gv0 start_state) ∈ start_state) :
    findPlan lookup (fuel + 1) start_state ((gk, gv0) :: rest) = Except.ok [] := by
  unfold findPlan
  rw [findActions_satisfied lookup fuel gk gv0 rest start_state h]
  rfl

theorem c4_witness :
    findPlan (createActionLookup []) 1 [("a", Value.int 1)] [("a", Value.int 1)] =
      Except.ok [] :=
  c4_satisfied_goal_empty_plan (createActionLookup []) 0 "a" (Value.int 1) []
    [("a", Value.int 1)] (by decide)

/-! ### Claim C10: empty goal state -/

/-- Claim C10: calling `find_plan` with an empty target state raises the
out-of-range indexing error of `list(target_state.items())[0]`, not an
empty Plan and not a GoalUnreachable error. -/
theorem c10_empty_target_index_error (lookup : Lookup) (fuel : Nat) (start_state : State) :
    findPlan lookup (fuel + 1) start_state [] = Except.error PlanError.indexError := by
  unfold findPlan
  rw [findActions_nil]
  rfl

/-! ### Claim C9: only the first goal predicate matters -/

/-- The search reads the goal state only through its head: on the same
head it either computes identical results or fails on both (the error
payload naming the goal differs). -/
theorem findActions_head_only (lookup : Lookup) (fuel : Nat) (gk : String) (gv0 : Value)
    (rest start_state : State) :
    findActions lookup fuel ((gk, gv0) :: rest) start_state =
        findActions lookup fuel [(gk, gv0)] start_state ∨
      (∃ e1 e2, findActions lookup fuel ((gk, gv0) :: rest) start_state = Except.error e1 ∧
        findActions lookup fuel [(gk, gv0)] start_state = Except.error e2) := by
  cases fuel with
  | zero => exact Or.inl rfl
  | succ fuel =>
    by_cases h1 : (gk, checkReferences gv0 start_state) ∈ start_state
    · rw [findActions_satisfied lookup fuel gk gv0 rest start_state h1,
        findActions_satisfied lookup fuel gk gv0 [] start_state h1]
      exact Or.inl rfl
    · by_cases h2 : candidatesOf lookup gk (checkReferences gv0 start_state) = []
      · rw [findActions_no_candidates lookup fuel gk gv0 rest start_state h1 h2,
          findActions_no_candidates lookup fuel gk gv0 [] start_state h1 h2]
        exact Or.inl rfl
      · rw [findActions_candidates lookup fuel gk gv0 rest start_state h1 h2,
          findActions_candidates lookup fuel gk gv0 [] start_state h1 h2]
        cases hm : mapExcept
            (expandAction lookup fuel start_state gk (checkReferences gv0 start_state))
            (candidatesOf lookup gk (checkReferences gv0 start_state)) with
        | error e => exact Or.inl rfl
        | ok paths =>
          cases hcost : Cost.lt (Cost.fin floatMax) (pathCost (selectPath paths)) with
          | true =>
            refine Or.inr ⟨PlanError.goalUnreachable ((gk, gv0) :: rest),
              PlanError.goalUnreachable [(gk, gv0)], ?_, ?_⟩ <;> simp [hcost]
          | false => exact Or.inl (by simp [hcost])

/-- Claim C9: `find_plan` on a multi-predicate target returns a given
plan exactly when it returns that plan on the single-predicate target
holding only the first pair; predicates beyond the first never influence
the returned plan. -/
theorem c9_only_first_goal_predicate_matters (lookup : Lookup) (fuel : Nat)
    (start_state : State) (gk : String) (gv0 : Value) (rest : State) (plan : Plan) :
    findPlan lookup fuel start_state ((gk, gv0) :: rest) = Except.ok plan ↔
      findPlan lookup fuel start_state [(gk, gv0)] = Except.ok plan := by
  unfold findPlan
  rcases findActions_head_only lookup fuel gk gv0 rest start_state with heq | ⟨e1, e2, h1, h2⟩
  · rw [heq]
  · rw [h1, h2]
    simp [Except.map]

theorem c9_witness :
    findPlan (createActionLookup []) 3 [] [("g", Value.bool true), ("h", Value.bool false)] =
      Except.ok [(ActionImpossible, [])] :=
  (c9_only_first_goal_predicate_matters (createActionLookup []) 3 [] "g" (Value.bool true)
    [("h", Value.bool false)] [(ActionImpossible, [])]).mpr rfl

/-! ### Claim C8: the plan assembler -/

/-- The resulting state recorded for action `a`: the effects component of
the *last* triple of the path whose action is `a` (the `OrderedDict`
assignment overwrites the value on duplicate keys). -/
def lastEffect (a : Action) (path : Path) : State :=
  match (path.filter (fun t => decide (t.1 = a))).getLast? with
  | some t => t.2.1
  | none => []

/-- Specification-side plan assembly: one entry per distinct action, in
order of first occurrence, each mapped to the effects of its last
occurrence. -/
def pathToPlanSpec (path : Path) : Plan :=
  (keepFirsts (path.map (fun t => t.1))).map (fun a => (a, lastEffect a path))

theorem pathToPlan_append (q : Path) (t : PathStep) :
    pathToPlan (q ++ [t]) = planInsert (pathToPlan q) t.1 t.2.1 := by
  simp [pathToPlan, List.foldl_append]

theorem lastEffect_append (a : Action) (q : Path) (t : PathStep) :
    lastEffect a (q ++ [t]) = if t.1 = a then t.2.1 else lastEffect a q := by
  unfold lastEffect
  rw [List.filter_append]
  by_cases h : t.1 = a
  · simp [h]
  · simp [h]

theorem pathToPlanSpec_keys (path : Path) :
    (pathToPlanSpec path).map Prod.fst = keepFirsts (path.map (fun t => t.1)) := by
  unfold pathToPlanSpec
  rw [List.map_map]
  have h : ∀ a ∈ keepFirsts (path.map (fun t => t.1)),
      (Prod.fst ∘ fun a => (a, lastEffect a path)) a = id a := fun a _ => rfl
  rw [List.map_congr_left h, List.map_id]

/-- The plan assembler agrees with the specification-side assembly. -/
theorem pathToPlan_eq_spec (path : Path) : pathToPlan path = pathToPlanSpec path := by
  induction path using List.reverseRecOn with
  | nil => simp [pathToPlan, pathToPlanSpec, keepFirsts]
  | append_singleton q t ih =>
    rw [pathToPlan_append, ih]
    unfold planInsert pathToPlanSpec
    rw [List.map_append]
    simp only [List.map_cons, List.map_nil]
    rw [keepFirsts_append_singleton]
    have hkeys : ∀ a : Action,
        ((keepFirsts (q.map (fun t => t.1))).map
          (fun a => (a, lastEffect a q))).any (fun e => decide (e.1 = a)) = true ↔
          a ∈ q.map (fun t => t.1) := by
      intro a
      constructor
      · intro hany
        obtain ⟨e, he, hea⟩ := List.any_eq_true.mp hany
        obtain ⟨x, hx, rfl⟩ := List.mem_map.mp he
        have hxa : x = a := of_decide_eq_true hea
        exact hxa ▸ (mem_keepFirsts x _).mp hx
      · intro ha
        refine List.any_eq_true.mpr ⟨(a, lastEffect a q),
          List.mem_map.mpr ⟨a, (mem_keepFirsts a _).mpr ha, rfl⟩, ?_⟩
        exact decide_eq_true rfl
    by_cases hmem : t.1 ∈ q.map (fun t => t.1)
    · rw [if_pos hmem, if_pos ((hkeys t.1).mpr hmem), List.map_map]
      apply List.map_congr_left
      intro a ha
      simp only [Function.comp]
      by_cases hat : a = t.1
      · subst hat
        simp [lastEffect_append]
      · rw [lastEffect_append]
        simp [hat]
        rw [if_neg (fun h => hat h.symm)]
    · rw [if_neg hmem]
      have hfalse : ((keepFirsts (q.map (fun t => t.1))).map
          (fun a => (a, lastEffect a q))).any (fun e => decide (e.1 = t.1)) = false := by
        rw [← Bool.not_eq_true, hkeys t.1]
        exact hmem
      rw [if_neg (by rw [hfalse]; exact fun h => Bool.noConfusion h), List.map_append]
      congr 1
      · apply List.map_congr_left
        intro a ha
        have hat : a ≠ t.1 := by
          intro h
          exact hmem (h ▸ (mem_keepFirsts a _).mp ha)
        rw [lastEffect_append, if_neg (fun h => hat h.symm)]
      · simp [lastEffect_append]

/-- Claim C8: the plan produced from any path has no duplicate action
keys; each action keeps the position of its *first* occurrence in the
path and is mapped to a single resulting state (the effects of its last
occurrence, since the `OrderedDict` assignment overwrites values). -/
theorem c8_plan_first_key_single_value (path : Path) :
    pathToPlan path = pathToPlanSpec path ∧ ((pathToPlan path).map Prod.fst).Nodup := by
  refine ⟨pathToPlan_eq_spec path, ?_⟩
  rw [pathToPlan_eq_spec path, pathToPlanSpec_keys]
  exact keepFirsts_nodup _

/-! ### Claim C5: reference resolution -/

/-- Claim C5 is false as stated: the resolver never checks that the
first character is the `@` sigil.  The string `"xb"` does not begin with
`'@'`, yet it is *not* returned unchanged: its remainder `"b"` is a key
of the context state, so it is replaced by that key's value. -/
theorem c5_counterexample_no_sigil_check :
    checkReferences (Value.str "xb") [("b", Value.bool true)] = Value.bool true ∧
      "xb".front ≠ '@' :=
  ⟨rfl, by decide⟩

/-- Claim C5 amended: reference resolution replaces a value exactly when
it is a string whose remainder after dropping the first character —
whatever that character is — is a key of the context state, in which
case the state's value for that key is returned; a string whose
remainder is not a key, and every non-string value, is returned
unchanged. -/
theorem c5_amended_reference_resolution (state : State) :
    (∀ (s : String) (v : Value),
      stateLookup? state (s.drop 1) = some v → checkReferences (Value.str s) state = v) ∧
    (∀ s : String,
      stateLookup? state (s.drop 1) = none →
        checkReferences (Value.str s) state = Value.str s) ∧
    (∀ ref : Value, (∀ s, ref ≠ Value.str s) → checkReferences ref state = ref) := by
  refine ⟨?_, ?_, ?_⟩
  · intro s v h
    simp [checkReferences, h]
  · intro s h
    simp [checkReferences, h]
  · intro ref h
    cases ref with
    | str s => exact absurd rfl (h s)
    | bool b => rfl
    | int n => rfl
    | ellipsis => rfl

theorem c5_witness :
    checkReferences (Value.str "@color") [("color", Value.str "red")] = Value.str "red" :=
  (c5_amended_reference_resolution [("color", Value.str "red")]).1 "@color"
    (Value.str "red") rfl

/-! ### Claim C1: unproducible top-level goal -/

/-- Claim C1 is false as stated: with an empty catalog no action
produces `("g", true)`, yet `find_plan` raises nothing — it returns the
Plan mapping the Impossible-Action sentinel to the empty state, because
`__find_actions` returns the sentinel path *before* reaching the cost
check that raises. -/
theorem c1_counterexample_sentinel_plan_returned :
    findPlan (createActionLookup []) 3 [] [("g", Value.bool true)] =
      Except.ok [(ActionImpossible, [])] := rfl

/-- Claim C1 amended: when no action's effects produce the resolved goal
pair, under neither the exact bucket nor the wildcard bucket for the
key, `find_plan` *returns* the single-entry Plan mapping the
Impossible-Action sentinel to the empty state (no GoalUnreachable error
is raised at this point). -/
theorem c1_amended_no_producer_returns_sentinel_plan (lookup : Lookup) (fuel : Nat)
    (gk : String) (gv0 : Value) (rest start_state : State)
    (h1 : (gk, checkReferences gv0 start_state) ∉ start_state)
    (h2 : lookup (gk, checkReferences gv0 start_state) = [])
    (h3 : lookup (gk, Value.ellipsis) = []) :
    findPlan lookup (fuel + 1) start_state ((gk, gv0) :: rest) =
      Except.ok [(ActionImpossible, [])] := by
  unfold findPlan
  have hc : candidatesOf lookup gk (checkReferences gv0 start_state) = [] := by
    simp [candidatesOf, h2, h3]
  rw [findActions_no_candidates lookup fuel gk gv0 rest start_state h1 hc]
  rfl

theorem c1_witness :
    findPlan (createActionLookup []) 1 [] [("g", Value.int 7)] =
      Except.ok [(ActionImpossible, [])] :=
  c1_amended_no_producer_returns_sentinel_plan (createActionLookup []) 0 "g" (Value.int 7)
    [] [] (by decide) rfl rfl

/-! ### Claim C3: propagation of unreachability -/

/-- Produces `g = 1` at cost 1 but needs the (unreachable) `p = 1`. -/
def actStep1 : Action := ⟨"step1", [("p", Value.int 1)], [("g", Value.int 1)], Cost.fin 1⟩

/-- Produces `g = 1` directly at cost 5. -/
def actDirect : Action := ⟨"direct", [], [("g", Value.int 1)], Cost.fin 5⟩

/-- Produces `p = 1` but needs the unproducible `q = 1`. -/
def actMid : Action := ⟨"mid", [("q", Value.int 1)], [("p", Value.int 1)], Cost.fin 1⟩

/-- Claim C3 is false as stated: the sub-search for the precondition
`p = 1` of `actStep1` has a candidate (`actMid`) whose own precondition
`q = 1` is unreachable, so the sub-search's chosen path is
sentinel-bearing and the sub-search *itself raises* GoalUnreachable
(planner.py line 95 runs in every recursive call).  The error aborts the
whole search even though the sibling candidate `actDirect` offers a
feasible cost-5 plan for the top-level goal. -/
theorem c3_counterexample_subsearch_raises :
    findPlan (createActionLookup [actStep1, actDirect, actMid]) 10 [] [("g", Value.int 1)] =
      Except.error (PlanError.goalUnreachable [("p", Value.int 1)]) := rfl

/-- Claim C3 amended: a sub-search returns the sentinel-bearing path
upward (instead of raising) exactly in the bottom case, when its goal
has no candidate action in either bucket; a sub-search that has
candidates but only sentinel-bearing expansions raises the hard error
itself, which propagates past feasible siblings.  When the unreachable
precondition bottoms out with no candidates, the infinite-cost candidate
loses the cost comparison and the feasible sibling's plan is returned,
as in the catalog `[actStep1, actDirect]` where nothing produces
`p = 1`. -/
theorem c3_amended_sentinel_only_when_no_candidates :
    (∀ (lookup : Lookup) (fuel : Nat) (gk : String) (gv0 : Value) (rest start_state : State),
      (gk, checkReferences gv0 start_state) ∉ start_state →
      lookup (gk, checkReferences gv0 start_state) = [] →
      lookup (gk, Value.ellipsis) = [] →
      findActions lookup (fuel + 1) ((gk, gv0) :: rest) start_state =
        Except.ok [(ActionImpossible, [], Cost.inf)]) ∧
    findPlan (createActionLookup [actStep1, actDirect]) 10 [] [("g", Value.int 1)] =
      Except.ok [(actDirect, [("g", Value.int 1)])] := by
  constructor
  · intro lookup fuel gk gv0 rest start_state h1 h2 h3
    have hc : candidatesOf lookup gk (checkReferences gv0 start_state) = [] := by
      simp [candidatesOf, h2, h3]
    exact findActions_no_candidates lookup fuel gk gv0 rest start_state h1 hc
  · rfl

theorem c3_witness :
    findActions (createActionLookup []) 1 [("q", Value.int 1)] [] =
      Except.ok [(ActionImpossible, [], Cost.inf)] :=
  c3_amended_sentinel_only_when_no_candidates.1 (createActionLookup []) 0 "q" (Value.int 1)
    [] [] (by decide) rfl rfl

end ActionGraph
